import Mathlib

/-
  Verification development for the Project_Trikal geospatial pipeline.

  Shallow embedding conventions:
  * 2D numpy arrays are modelled as total functions from a pair of natural
    indices to rationals; the array shape (height, width) is passed alongside.
    Exact rational arithmetic stands in for floating point.
  * The square root applied by numpy inside the correlation map is kept
    abstract as a function parameter sqrtF, since it is irrational in general;
    theorems that need properties of the true square root take them as
    hypotheses about sqrtF at the relevant points.
  * NaN-carrying numpy arrays are modelled with Option: none is NaN.
  * Python lists are Lean lists; Python strings are modelled both as Lean
    strings and as their underlying character lists.
-/

namespace Trikal

/-! ## ml_service/app/logic/features.py : calculate_correlation_map

The function pads both inputs by reflect padding, then walks the raster in
square tiles; for each tile it slices the padded inputs, builds sliding
windows, mean-centers them, and writes the normalized correlation of each
window into the matching slice of the output array. -/

/-- Index into the reflected extension of an axis of length n, as produced by
numpy pad with mode reflect: the extension is periodic with period 2(n-1) and
mirrors without repeating the edge sample; for n = 1 every position maps to
the single sample. The argument t is a position relative to the original
axis (negative inside the left padding). -/
def reflectIdx (n : ℕ) (t : ℤ) : ℕ :=
  if n ≤ 1 then 0
  else
    let p : ℤ := 2 * ((n : ℤ) - 1)
    let m : ℤ := t % p
    (if m < (n : ℤ) then m else p - m).toNat

/-- np.pad(a, pad, mode=reflect) for a 2D array of shape (h, w): position
(i, j) of the padded array reads the reflected extension at (i - pad, j - pad). -/
def reflectPad (a : ℕ → ℕ → ℚ) (h w pad : ℕ) : ℕ → ℕ → ℚ :=
  fun i j => a (reflectIdx h ((i : ℤ) - pad)) (reflectIdx w ((j : ℤ) - pad))

/-- Sum of the wsz x wsz window of g whose top-left corner is (i, j). -/
def winSum (g : ℕ → ℕ → ℚ) (wsz i j : ℕ) : ℚ :=
  ∑ u ∈ Finset.range wsz, ∑ v ∈ Finset.range wsz, g (i + u) (j + v)

/-- Mean of the wsz x wsz window at (i, j): windows.mean(axis=(2, 3)). -/
def winMean (g : ℕ → ℕ → ℚ) (wsz i j : ℕ) : ℚ :=
  winSum g wsz i j / ((wsz : ℚ) * (wsz : ℚ))

/-- Mean-centered window entry: windows - windows.mean(...), at in-window
offset (u, v) of the window anchored at (i, j). -/
def normWin (g : ℕ → ℕ → ℚ) (wsz i j u v : ℕ) : ℚ :=
  g (i + u) (j + v) - winMean g wsz i j

/-- numerator = np.sum(before_norm * after_norm, axis=(2, 3)). -/
def corrNum (g1 g2 : ℕ → ℕ → ℚ) (wsz i j : ℕ) : ℚ :=
  ∑ u ∈ Finset.range wsz, ∑ v ∈ Finset.range wsz,
    normWin g1 wsz i j u v * normWin g2 wsz i j u v

/-- np.sum(norm ** 2, axis=(2, 3)) for one input. -/
def sumSqWin (g : ℕ → ℕ → ℚ) (wsz i j : ℕ) : ℚ :=
  ∑ u ∈ Finset.range wsz, ∑ v ∈ Finset.range wsz, (normWin g wsz i j u v) ^ 2

/-- The quantity under the square root in the denominator:
np.sum(before_norm ** 2) * np.sum(after_norm ** 2) for one window. -/
def corrDen2 (g1 g2 : ℕ → ℕ → ℚ) (wsz i j : ℕ) : ℚ :=
  sumSqWin g1 wsz i j * sumSqWin g2 wsz i j

/-- One output value of the correlation computation: the code forms
denominator = sqrt(den2), rewrites exact zeros of the denominator to 1
(denominator[denominator == 0] = 1), and divides. -/
def corrPixel (sqrtF : ℚ → ℚ) (g1 g2 : ℕ → ℕ → ℚ) (wsz i j : ℕ) : ℚ :=
  corrNum g1 g2 wsz i j /
    (if sqrtF (corrDen2 g1 g2 wsz i j) = 0 then 1 else sqrtF (corrDen2 g1 g2 wsz i j))

/-- Slicing a function array at offset (r, c); the code slices with an upper
bound as well, but every read the tile computation performs stays inside that
bound, so the offset alone determines all values read. -/
def sliceAt (g : ℕ → ℕ → ℚ) (r c : ℕ) : ℕ → ℕ → ℚ :=
  fun u v => g (r + u) (c + v)

/-- range(0, n, ts) from the Python tile loops. -/
def tileStarts (n ts : ℕ) : List ℕ :=
  (List.range ((n + ts - 1) / ts)).map (· * ts)

/-- correlation_map[r:r_end, c:c_end] = tile_corr as an update of the output
array: positions inside the slice read the tile result, all others keep their
previous value. -/
def writeTile (m : ℕ → ℕ → ℚ) (r rEnd c cEnd : ℕ) (tv : ℕ → ℕ → ℚ) : ℕ → ℕ → ℚ :=
  fun i j => if r ≤ i ∧ i < rEnd ∧ c ≤ j ∧ j < cEnd then tv (i - r) (j - c) else m i j

/-- if window_size % 2 == 0: window_size += 1. -/
def oddWindow (window : ℕ) : ℕ :=
  if window % 2 = 0 then window + 1 else window

/-- calculate_correlation_map(before, after, window_size, tile_size): pads both
arrays by reflect padding with pad = window/2, starts from a zero output array,
and for each tile writes the windowed correlations of the padded tile slice
into the matching output slice. -/
def calculate_correlation_map (sqrtF : ℚ → ℚ) (before after : ℕ → ℕ → ℚ)
    (height width window tsize : ℕ) : ℕ → ℕ → ℚ :=
  let wsz := oddWindow window
  let pad := wsz / 2
  let bp := reflectPad before height width pad
  let ap := reflectPad after height width pad
  (tileStarts height tsize).foldl (fun m r =>
    (tileStarts width tsize).foldl (fun m2 c =>
      writeTile m2 r (min (r + tsize) height) c (min (c + tsize) width)
        (fun u v => corrPixel sqrtF (sliceAt bp r c) (sliceAt ap r c) wsz u v)) m)
    (fun _ _ => 0)

lemma winSum_sliceAt (g : ℕ → ℕ → ℚ) (r c wsz u v : ℕ) :
    winSum (sliceAt g r c) wsz u v = winSum g wsz (r + u) (c + v) := by
  unfold winSum sliceAt
  refine Finset.sum_congr rfl fun du _ => Finset.sum_congr rfl fun dv _ => ?_
  rw [Nat.add_assoc, Nat.add_assoc]

lemma normWin_sliceAt (g : ℕ → ℕ → ℚ) (r c wsz u v du dv : ℕ) :
    normWin (sliceAt g r c) wsz u v du dv = normWin g wsz (r + u) (c + v) du dv := by
  unfold normWin winMean
  rw [winSum_sliceAt]
  simp only [sliceAt]
  rw [Nat.add_assoc, Nat.add_assoc]

lemma corrPixel_sliceAt (sqrtF : ℚ → ℚ) (g1 g2 : ℕ → ℕ → ℚ) (r c wsz u v : ℕ) :
    corrPixel sqrtF (sliceAt g1 r c) (sliceAt g2 r c) wsz u v
      = corrPixel sqrtF g1 g2 wsz (r + u) (c + v) := by
  have hnum : corrNum (sliceAt g1 r c) (sliceAt g2 r c) wsz u v
      = corrNum g1 g2 wsz (r + u) (c + v) := by
    unfold corrNum
    exact Finset.sum_congr rfl fun du _ => Finset.sum_congr rfl fun dv _ => by
      rw [normWin_sliceAt, normWin_sliceAt]
  have hsq : ∀ g, sumSqWin (sliceAt g r c) wsz u v = sumSqWin g wsz (r + u) (c + v) := by
    intro g
    unfold sumSqWin
    exact Finset.sum_congr rfl fun du _ => Finset.sum_congr rfl fun dv _ => by
      rw [normWin_sliceAt]
  unfold corrPixel corrDen2
  rw [hnum, hsq, hsq]

lemma foldl_preserve (step : (ℕ → ℕ → ℚ) → ℕ → (ℕ → ℕ → ℚ)) (i j : ℕ) :
    ∀ (l : List ℕ), (∀ m r, r ∈ l → step m r i j = m i j) →
      ∀ m, (l.foldl step m) i j = m i j := by
  intro l
  induction l with
  | nil => intro _ m; rfl
  | cons a t ih =>
    intro hmiss m
    rw [List.foldl_cons, ih (fun m r hr => hmiss m r (List.mem_cons_of_mem a hr)),
      hmiss m a (List.mem_cons_self a t)]

lemma foldl_hit (step : (ℕ → ℕ → ℚ) → ℕ → (ℕ → ℕ → ℚ)) (i j : ℕ) (v : ℚ) (r0 : ℕ) :
    ∀ (l : List ℕ), r0 ∈ l → (∀ m, step m r0 i j = v) →
      (∀ m r, r ∈ l → r ≠ r0 → step m r i j = m i j) →
      ∀ m, (l.foldl step m) i j = v := by
  intro l
  induction l with
  | nil => intro hmem; cases hmem
  | cons a t ih =>
    intro hmem hhit hmiss m
    rw [List.foldl_cons]
    by_cases hrt : r0 ∈ t
    · exact ih hrt hhit (fun m r hr => hmiss m r (List.mem_cons_of_mem a hr)) _
    · have ha : a = r0 := by
        rcases List.mem_cons.mp hmem with h | h
        · exact h.symm
        · exact absurd h hrt
      rw [foldl_preserve step i j t
        (fun m r hr => hmiss m r (List.mem_cons_of_mem a hr) (fun he => hrt (he ▸ hr)))]
      rw [ha, hhit]

lemma div_mul_mem_tileStarts {n ts i : ℕ} (hts : 0 < ts) (hi : i < n) :
    i / ts * ts ∈ tileStarts n ts := by
  unfold tileStarts
  refine List.mem_map.mpr ⟨i / ts, List.mem_range.mpr ?_, rfl⟩
  have h1 : i / ts * ts ≤ i := Nat.div_mul_le_self i ts
  have h2 : (i / ts + 1) * ts ≤ n + ts - 1 := by
    rw [Nat.add_mul, Nat.one_mul]
    omega
  have h3 := (Nat.le_div_iff_mul_le hts).mpr h2
  omega

lemma lt_div_mul_add {ts i : ℕ} (hts : 0 < ts) : i < i / ts * ts + ts := by
  have h := (Nat.div_lt_iff_lt_mul hts).mp (Nat.lt_succ_self (i / ts))
  rw [Nat.succ_mul] at h
  exact h

lemma tileStarts_band {n ts r i : ℕ} (hr : r ∈ tileStarts n ts)
    (hle : r ≤ i) (hlt : i < r + ts) : r = i / ts * ts := by
  obtain ⟨k, _, rfl⟩ := List.mem_map.mp hr
  have hk : i / ts = k := by
    refine Nat.div_eq_of_lt_le hle ?_
    rw [Nat.add_mul, Nat.one_mul]
    exact hlt
  rw [hk]

/-- Functional characterization of the tiled loop: inside the raster, the
output value at (i, j) is the windowed correlation of the padded arrays at
window anchor (i, j), whatever the (positive) tile size is. -/
lemma correlationMap_apply (sqrtF : ℚ → ℚ) (before after : ℕ → ℕ → ℚ)
    (height width window tsize : ℕ) (hts : 0 < tsize) {i j : ℕ}
    (hi : i < height) (hj : j < width) :
    calculate_correlation_map sqrtF before after height width window tsize i j
      = corrPixel sqrtF (reflectPad before height width (oddWindow window / 2))
          (reflectPad after height width (oddWindow window / 2)) (oddWindow window) i j := by
  unfold calculate_correlation_map
  set wsz := oddWindow window with hwsz
  set bp := reflectPad before height width (wsz / 2) with hbp
  set ap := reflectPad after height width (wsz / 2) with hap
  have hr0le : i / tsize * tsize ≤ i := Nat.div_mul_le_self i tsize
  have hc0le : j / tsize * tsize ≤ j := Nat.div_mul_le_self j tsize
  have hr0lt : i < i / tsize * tsize + tsize := lt_div_mul_add hts
  have hc0lt : j < j / tsize * tsize + tsize := lt_div_mul_add hts
  refine foldl_hit _ i j _ (i / tsize * tsize) _ (div_mul_mem_tileStarts hts hi) ?_ ?_ _
  · intro m
    refine foldl_hit _ i j _ (j / tsize * tsize) _ (div_mul_mem_tileStarts hts hj) ?_ ?_ _
    · intro m2
      unfold writeTile
      rw [if_pos ⟨hr0le, lt_min hr0lt hi, hc0le, lt_min hc0lt hj⟩]
      simp only [corrPixel_sliceAt]
      rw [Nat.add_sub_cancel' hr0le, Nat.add_sub_cancel' hc0le]
    · intro m2 c hc hne
      unfold writeTile
      rw [if_neg]
      rintro ⟨-, -, hcj, hjlt⟩
      exact hne (tileStarts_band hc hcj (lt_of_lt_of_le hjlt (min_le_left _ _)))
  · intro m r hr hne
    refine foldl_preserve _ i j _ ?_ _
    intro m2 c _
    unfold writeTile
    rw [if_neg]
    rintro ⟨hri, hilt, -, -⟩
    exact hne (tileStarts_band hr hri (lt_of_lt_of_le hilt (min_le_left _ _)))

/-- Claim C1: for equal-shape inputs and any positive tile size, the tiled
correlation map agrees, at every raster position, with the untiled computation
that uses a single tile covering the whole raster; tiling only bounds memory. -/
theorem correlation_map_tiling_invariant (sqrtF : ℚ → ℚ) (before after : ℕ → ℕ → ℚ)
    (height width window tsize : ℕ) (hts : 0 < tsize) (i j : ℕ)
    (hi : i < height) (hj : j < width) :
    calculate_correlation_map sqrtF before after height width window tsize i j
      = calculate_correlation_map sqrtF before after height width window
          (max (max height width) 1) i j := by
  rw [correlationMap_apply sqrtF before after height width window tsize hts hi hj,
    correlationMap_apply sqrtF before after height width window (max (max height width) 1)
      (Nat.lt_of_lt_of_le Nat.zero_lt_one (le_max_right _ 1)) hi hj]

theorem correlation_map_tiling_invariant_witness :
    0 < 1 ∧ (0 : ℕ) < 2 ∧ (1 : ℕ) < 2 ∧
      calculate_correlation_map id (fun i j => (i : ℚ) + j) (fun i j => (i : ℚ) * j)
          2 2 3 1 0 1
        = calculate_correlation_map id (fun i j => (i : ℚ) + j) (fun i j => (i : ℚ) * j)
          2 2 3 (max (max 2 2) 1) 0 1 :=
  ⟨Nat.zero_lt_one, by decide, by decide,
    correlation_map_tiling_invariant id (fun i j => (i : ℚ) + j) (fun i j => (i : ℚ) * j)
      2 2 3 1 Nat.zero_lt_one 0 1 (by decide) (by decide)⟩

lemma corrNum_eq_zero_of_den2_zero (g1 g2 : ℕ → ℕ → ℚ) (wsz i j : ℕ)
    (h : corrDen2 g1 g2 wsz i j = 0) : corrNum g1 g2 wsz i j = 0 := by
  unfold corrDen2 at h
  have key : ∀ g : ℕ → ℕ → ℚ, sumSqWin g wsz i j = 0 →
      ∀ u ∈ Finset.range wsz, ∀ v ∈ Finset.range wsz, normWin g wsz i j u v = 0 := by
    intro g hg u hu v hv
    unfold sumSqWin at hg
    have h2 := (Finset.sum_eq_zero_iff_of_nonneg
      (fun u _ => Finset.sum_nonneg fun v _ => sq_nonneg _)).mp hg u hu
    have h3 := (Finset.sum_eq_zero_iff_of_nonneg (fun v _ => sq_nonneg _)).mp h2 v hv
    exact sq_eq_zero_iff.mp h3
  rcases mul_eq_zero.mp h with h1 | h1
  · unfold corrNum
    refine Finset.sum_eq_zero fun u hu => Finset.sum_eq_zero fun v hv => ?_
    rw [key g1 h1 u hu v hv, zero_mul]
  · unfold corrNum
    refine Finset.sum_eq_zero fun u hu => Finset.sum_eq_zero fun v hv => ?_
    rw [key g2 h1 u hu v hv, mul_zero]

/-- Claim C2: a window whose denominator sum-of-squares product is zero after
local mean-centering produces exactly 0 in the correlation map (the code
rewrites the zero denominator to 1, and the numerator of such a window is
itself zero), never an undefined division. The hypothesis on sqrtF records
that the true square root of 0 is 0, which is how the code detects the
degenerate windows. -/
theorem correlation_map_zero_variance (sqrtF : ℚ → ℚ) (hs0 : sqrtF 0 = 0)
    (before after : ℕ → ℕ → ℚ) (height width window tsize : ℕ) (hts : 0 < tsize)
    (i j : ℕ) (hi : i < height) (hj : j < width)
    (hdeg : corrDen2 (reflectPad before height width (oddWindow window / 2))
        (reflectPad after height width (oddWindow window / 2)) (oddWindow window) i j = 0) :
    calculate_correlation_map sqrtF before after height width window tsize i j = 0 := by
  rw [correlationMap_apply sqrtF before after height width window tsize hts hi hj]
  unfold corrPixel
  rw [hdeg, hs0, if_pos rfl,
    corrNum_eq_zero_of_den2_zero _ _ _ _ _ hdeg, zero_div]

theorem correlation_map_zero_variance_witness :
    id (0 : ℚ) = 0 ∧ 0 < 1 ∧ (0 : ℕ) < 1 ∧
      corrDen2 (reflectPad (fun _ _ => (5 : ℚ)) 1 1 (oddWindow 1 / 2))
        (reflectPad (fun _ _ => (5 : ℚ)) 1 1 (oddWindow 1 / 2)) (oddWindow 1) 0 0 = 0 ∧
      calculate_correlation_map id (fun _ _ => (5 : ℚ)) (fun _ _ => (5 : ℚ)) 1 1 1 1 0 0 = 0 := by
  have hdeg : corrDen2 (reflectPad (fun _ _ => (5 : ℚ)) 1 1 (oddWindow 1 / 2))
      (reflectPad (fun _ _ => (5 : ℚ)) 1 1 (oddWindow 1 / 2)) (oddWindow 1) 0 0 = 0 := by
    norm_num [corrDen2, sumSqWin, normWin, winMean, winSum, reflectPad, oddWindow]
  exact ⟨rfl, Nat.zero_lt_one, Nat.zero_lt_one, hdeg,
    correlation_map_zero_variance id rfl (fun _ _ => (5 : ℚ)) (fun _ _ => (5 : ℚ))
      1 1 1 1 Nat.zero_lt_one 0 0 Nat.zero_lt_one Nat.zero_lt_one hdeg⟩

/-- Claim C3: correlating an array against itself yields exactly 1 at every
window whose mean-centered values are not all zero. The sqrtF hypothesis
records the defining property of the true square root at this window: the
denominator quantity is the square of the window sum of squares, and its
square root is that (nonnegative) sum of squares. -/
theorem correlation_map_self_is_one (sqrtF : ℚ → ℚ) (before : ℕ → ℕ → ℚ)
    (height width window tsize : ℕ) (hts : 0 < tsize) (i j : ℕ)
    (hi : i < height) (hj : j < width)
    (hS : sumSqWin (reflectPad before height width (oddWindow window / 2))
        (oddWindow window) i j ≠ 0)
    (hsqrt : sqrtF (corrDen2 (reflectPad before height width (oddWindow window / 2))
          (reflectPad before height width (oddWindow window / 2)) (oddWindow window) i j)
        = sumSqWin (reflectPad before height width (oddWindow window / 2))
            (oddWindow window) i j) :
    calculate_correlation_map sqrtF before before height width window tsize i j = 1 := by
  rw [correlationMap_apply sqrtF before before height width window tsize hts hi hj]
  unfold corrPixel
  rw [hsqrt, if_neg hS]
  have hnum : corrNum (reflectPad before height width (oddWindow window / 2))
      (reflectPad before height width (oddWindow window / 2)) (oddWindow window) i j
      = sumSqWin (reflectPad before height width (oddWindow window / 2))
          (oddWindow window) i j := by
    unfold corrNum sumSqWin
    exact Finset.sum_congr rfl fun u _ => Finset.sum_congr rfl fun v _ => (sq _).symm
  rw [hnum]
  exact div_self hS

theorem correlation_map_self_is_one_witness :
    0 < 1 ∧ (0 : ℕ) < 2 ∧ (0 : ℕ) < 1 ∧
      sumSqWin (reflectPad (fun i _ => (i : ℚ)) 2 1 (oddWindow 3 / 2)) (oddWindow 3) 0 0 ≠ 0 ∧
      calculate_correlation_map
        (fun _ => sumSqWin (reflectPad (fun i _ => (i : ℚ)) 2 1 (oddWindow 3 / 2)) (oddWindow 3) 0 0)
        (fun i _ => (i : ℚ)) (fun i _ => (i : ℚ)) 2 1 3 1 0 0 = 1 := by
  have hS : sumSqWin (reflectPad (fun i _ => (i : ℚ)) 2 1 (oddWindow 3 / 2))
      (oddWindow 3) 0 0 ≠ 0 := by
    norm_num [sumSqWin, normWin, winMean, winSum, reflectPad, reflectIdx, oddWindow,
      Finset.sum_range_succ]
  exact ⟨Nat.zero_lt_one, by decide, Nat.zero_lt_one, hS,
    correlation_map_self_is_one _ (fun i _ => (i : ℚ)) 2 1 3 1 Nat.zero_lt_one 0 0
      (by decide) Nat.zero_lt_one hS rfl⟩

/-! ## data_service/dem_download.py : get_required_dem_tiles, and the inline
tile loop of backend_service dem_downloader.py -/

/-- Python range(a, b) over integers. -/
def intRange (a b : ℤ) : List ℤ :=
  (List.range (b - a).toNat).map (fun k : ℕ => a + (k : ℤ))

/-- Decimal digit characters of a natural number, most significant first;
the character content of Python str(n). -/
def decRepr (n : ℕ) : List Char :=
  if n = 0 then ['0'] else (Nat.digits 10 n).reverse.map Nat.digitChar

/-- Zero padding to a fixed width, as the Python format specifiers 02d and
03d produce for nonnegative integers. -/
def zfill (w : ℕ) (s : List Char) : List Char :=
  List.replicate (w - s.length) '0' ++ s

/-- Character content of the f-string building one tile name: hemisphere
letter, two-digit latitude magnitude, underscore, east-west letter,
three-digit longitude magnitude. -/
def tileNameChars (lon lat : ℤ) : List Char :=
  (if 0 ≤ lat then 'N' else 'S') :: zfill 2 (decRepr lat.natAbs)
    ++ '_' :: (if 0 ≤ lon then 'E' else 'W') :: zfill 3 (decRepr lon.natAbs)

def tileName (lon lat : ℤ) : String :=
  String.mk (tileNameChars lon lat)

/-- get_required_dem_tiles(bounds): floor/ceil the bounds to an integer grid
and emit one tile name per (lon, lat) pair, longitude loop outermost. -/
def get_required_dem_tiles (west south east north : ℚ) : List String :=
  (intRange ⌊west⌋ ⌈east⌉).flatMap fun lon =>
    (intRange ⌊south⌋ ⌈north⌉).map fun lat => tileName lon lat

/-- The tile name built inline by DEMDownloader.download_dem_data, transcribed
from backend_service dem_downloader.py. -/
def backendTileName (lon lat : ℤ) : String :=
  String.mk ((if 0 ≤ lat then 'N' else 'S') :: zfill 2 (decRepr lat.natAbs)
    ++ '_' :: (if 0 ≤ lon then 'E' else 'W') :: zfill 3 (decRepr lon.natAbs))

/-- The tile list built inline by DEMDownloader.download_dem_data: the same
double loop over range(floor(west), ceil(east)) and range(floor(south),
ceil(north)), longitude outermost. -/
def backend_dem_tiles (west south east north : ℚ) : List String :=
  (intRange ⌊west⌋ ⌈east⌉).flatMap fun lon =>
    (intRange ⌊south⌋ ⌈north⌉).map fun lat => backendTileName lon lat

lemma digitChar_inj_lt : ∀ d < 10, ∀ e < 10, Nat.digitChar d = Nat.digitChar e → d = e := by
  decide

lemma digitChar_ne_underscore : ∀ d < 10, Nat.digitChar d ≠ '_' := by
  decide

lemma decRepr_ne_nil (n : ℕ) : decRepr n ≠ [] := by
  unfold decRepr
  split
  · simp
  · simp only [ne_eq, List.map_eq_nil_iff, List.reverse_eq_nil_iff]
    exact Nat.digits_ne_nil_iff_ne_zero.mpr (by assumption)

lemma mem_decRepr (n : ℕ) {c : Char} (hc : c ∈ decRepr n) :
    ∃ d, d < 10 ∧ c = Nat.digitChar d := by
  unfold decRepr at hc
  split at hc
  · exact ⟨0, by norm_num, by rw [List.mem_singleton.mp hc]; rfl⟩
  · obtain ⟨d, hd, rfl⟩ := List.mem_map.mp hc
    exact ⟨d, Nat.digits_lt_base (by norm_num) (List.mem_reverse.mp hd), rfl⟩

lemma mem_decRepr_ne_underscore (n : ℕ) {c : Char} (hc : c ∈ decRepr n) : c ≠ '_' := by
  obtain ⟨d, hd, rfl⟩ := mem_decRepr n hc
  exact digitChar_ne_underscore d hd

lemma map_digitChar_inj : ∀ l1 l2 : List ℕ, (∀ d ∈ l1, d < 10) → (∀ d ∈ l2, d < 10) →
    l1.map Nat.digitChar = l2.map Nat.digitChar → l1 = l2 := by
  intro l1
  induction l1 with
  | nil =>
    intro l2 _ _ h
    cases l2 with
    | nil => rfl
    | cons b t => simp at h
  | cons a t ih =>
    intro l2 h1 h2 h
    cases l2 with
    | nil => simp at h
    | cons b t2 =>
      simp only [List.map_cons, List.cons.injEq] at h
      have ha : a = b := digitChar_inj_lt a (h1 a (List.mem_cons_self a t)) b
        (h2 b (List.mem_cons_self b t2)) h.1
      have ht : t = t2 := ih t2 (fun d hd => h1 d (List.mem_cons_of_mem a hd))
        (fun d hd => h2 d (List.mem_cons_of_mem b hd)) h.2
      rw [ha, ht]

lemma digits_concat_last_ne_zero {n : ℕ} (hn : n ≠ 0) {L : List ℕ} {d : ℕ}
    (hLd : Nat.digits 10 n = L ++ [d]) : d ≠ 0 := by
  have hlast := Nat.getLast_digit_ne_zero 10 hn
  have h2 : (Nat.digits 10 n).getLast? = some d := by
    rw [hLd]
    exact List.getLast?_concat L
  rw [List.getLast?_eq_getLast _ (Nat.digits_ne_nil_iff_ne_zero.mpr hn),
    Option.some_inj] at h2
  rw [← h2]
  exact hlast

lemma decRepr_inj {m n : ℕ} (h : decRepr m = decRepr n) : m = n := by
  have key : ∀ k : ℕ, k ≠ 0 → decRepr k ≠ ['0'] := by
    intro k hk habs
    unfold decRepr at habs
    rw [if_neg hk] at habs
    rcases List.eq_nil_or_concat (Nat.digits 10 k) with hnil | ⟨L, d, hLd⟩
    · exact (Nat.digits_ne_nil_iff_ne_zero.mpr hk) hnil
    · rw [List.concat_eq_append] at hLd
      rw [hLd, List.reverse_append, List.reverse_singleton, List.singleton_append,
        List.map_cons] at habs
      simp only [List.cons.injEq, List.map_eq_nil_iff] at habs
      have hd10 : d < 10 := Nat.digits_lt_base (by norm_num)
        (by rw [hLd]; exact List.mem_append_right L (List.mem_singleton.mpr rfl))
      have hd0 : d = 0 := digitChar_inj_lt d hd10 0 (by norm_num) habs.1
      exact digits_concat_last_ne_zero hk hLd hd0
  by_cases hm : m = 0 <;> by_cases hn : n = 0
  · rw [hm, hn]
  · exact absurd ((by rw [← h, hm]; rfl : decRepr n = ['0'])) (key n hn)
  · exact absurd ((by rw [h, hn]; rfl : decRepr m = ['0'])) (key m hm)
  · unfold decRepr at h
    rw [if_neg hm, if_neg hn] at h
    have := map_digitChar_inj _ _
      (fun d hd => Nat.digits_lt_base (by norm_num) (List.mem_reverse.mp hd))
      (fun d hd => Nat.digits_lt_base (by norm_num) (List.mem_reverse.mp hd)) h
    have := List.reverse_injective this
    exact Nat.digits.injective 10 this

lemma decRepr_head_ne_zero {n : ℕ} (hn : n ≠ 0) {c : Char} {cs : List Char}
    (h : decRepr n = c :: cs) : (c == '0') = false := by
  rcases List.eq_nil_or_concat (Nat.digits 10 n) with hnil | ⟨L, d, hLd⟩
  · exact absurd hnil (Nat.digits_ne_nil_iff_ne_zero.mpr hn)
  · rw [List.concat_eq_append] at hLd
    unfold decRepr at h
    rw [if_neg hn, hLd, List.reverse_append, List.reverse_singleton,
      List.singleton_append, List.map_cons] at h
    have hd10 : d < 10 := Nat.digits_lt_base (by norm_num)
      (by rw [hLd]; exact List.mem_append_right L (List.mem_singleton.mpr rfl))
    have hdne : d ≠ 0 := digits_concat_last_ne_zero hn hLd
    rw [beq_eq_false_iff_ne]
    rw [List.cons.injEq] at h
    rw [← h.1]
    intro habs
    exact hdne (digitChar_inj_lt d hd10 0 (by norm_num) habs)

lemma dropWhile_replicate_zero (k : ℕ) (l : List Char) :
    List.dropWhile (fun c => c == '0') (List.replicate k '0' ++ l)
      = List.dropWhile (fun c => c == '0') l := by
  induction k with
  | zero => rfl
  | succ k ih => rw [List.replicate_succ, List.cons_append, List.dropWhile_cons_of_pos rfl, ih]

lemma dropWhile_zfill (w n : ℕ) :
    List.dropWhile (fun c => c == '0') (zfill w (decRepr n))
      = if n = 0 then [] else decRepr n := by
  unfold zfill
  rw [dropWhile_replicate_zero]
  by_cases hn : n = 0
  · rw [if_pos hn, hn]
    rfl
  · rw [if_neg hn]
    cases h : decRepr n with
    | nil => exact absurd h (decRepr_ne_nil n)
    | cons c cs => rw [List.dropWhile_cons_of_neg (by rw [decRepr_head_ne_zero hn h]; simp)]

lemma zfill_decRepr_inj {w m n : ℕ} (h : zfill w (decRepr m) = zfill w (decRepr n)) :
    m = n := by
  have h2 := congrArg (List.dropWhile (fun c => c == '0')) h
  rw [dropWhile_zfill, dropWhile_zfill] at h2
  by_cases hm : m = 0 <;> by_cases hn : n = 0
  · rw [hm, hn]
  · rw [if_pos hm, if_neg hn] at h2
    exact absurd h2.symm (decRepr_ne_nil n)
  · rw [if_neg hm, if_pos hn] at h2
    exact absurd h2 (decRepr_ne_nil m)
  · rw [if_neg hm, if_neg hn] at h2
    exact decRepr_inj h2

lemma underscore_not_mem_zfill (w n : ℕ) : '_' ∉ zfill w (decRepr n) := by
  intro hmem
  rcases List.mem_append.mp hmem with hrep | hdec
  · have := List.eq_of_mem_replicate hrep
    simp at this
  · exact mem_decRepr_ne_underscore n hdec rfl

lemma append_underscore_inj : ∀ l1 l2 r1 r2 : List Char, '_' ∉ l1 → '_' ∉ l2 →
    l1 ++ '_' :: r1 = l2 ++ '_' :: r2 → l1 = l2 ∧ r1 = r2 := by
  intro l1
  induction l1 with
  | nil =>
    intro l2 r1 r2 _ h2 h
    cases l2 with
    | nil => simpa using h
    | cons c t =>
      simp only [List.nil_append, List.cons_append, List.cons.injEq] at h
      exact absurd (h.1 ▸ List.mem_cons_self c t) h2
  | cons c t ih =>
    intro l2 r1 r2 h1 h2 h
    cases l2 with
    | nil =>
      simp only [List.nil_append, List.cons_append, List.cons.injEq] at h
      exact absurd (h.1 ▸ List.mem_cons_self c t) h1
    | cons c2 t2 =>
      simp only [List.cons_append, List.cons.injEq] at h
      obtain ⟨ht, hr⟩ := ih t2 r1 r2 (fun hm => h1 (List.mem_cons_of_mem c hm))
        (fun hm => h2 (List.mem_cons_of_mem c2 hm)) h.2
      exact ⟨by rw [h.1, ht], hr⟩

lemma tileName_inj {lon lat lon2 lat2 : ℤ}
    (h : tileName lon lat = tileName lon2 lat2) : lon = lon2 ∧ lat = lat2 := by
  unfold tileName tileNameChars at h
  have hchars := congrArg String.data h
  simp only [List.cons_append, List.cons.injEq] at hchars
  obtain ⟨hns, hrest⟩ := hchars
  obtain ⟨hlat, hright⟩ := append_underscore_inj _ _ _ _
    (underscore_not_mem_zfill 2 lat.natAbs) (underscore_not_mem_zfill 2 lat2.natAbs) hrest
  simp only [List.cons.injEq] at hright
  obtain ⟨hew, hlon⟩ := hright
  have hlatAbs : lat.natAbs = lat2.natAbs := zfill_decRepr_inj hlat
  have hlonAbs : lon.natAbs = lon2.natAbs := zfill_decRepr_inj hlon
  have hlatSign : 0 ≤ lat ↔ 0 ≤ lat2 := by
    by_cases ha : 0 ≤ lat <;> by_cases hb : 0 ≤ lat2 <;>
      simp [ha, hb] at hns ⊢
  have hlonSign : 0 ≤ lon ↔ 0 ≤ lon2 := by
    by_cases ha : 0 ≤ lon <;> by_cases hb : 0 ≤ lon2 <;>
      simp [ha, hb] at hew ⊢
  constructor <;> omega

lemma intRange_nodup (a b : ℤ) : (intRange a b).Nodup := by
  unfold intRange
  refine List.Nodup.map ?_ (List.nodup_range _)
  intro x y hxy
  have hxy2 : a + (x : ℤ) = a + (y : ℤ) := hxy
  omega

lemma intRange_length (a b : ℤ) : (intRange a b).length = (b - a).toNat := by
  unfold intRange
  rw [List.length_map, List.length_range]

/-- Claim C4: for every bounding box with west < east and south < north, the
tile resolver returns exactly (ceil(east) - floor(west)) * (ceil(north) -
floor(south)) tile names, and the returned list has no duplicates. -/
theorem get_required_dem_tiles_count_nodup (west south east north : ℚ)
    (hwe : west < east) (hsn : south < north) :
    ((get_required_dem_tiles west south east north).length : ℤ)
        = (⌈east⌉ - ⌊west⌋) * (⌈north⌉ - ⌊south⌋)
      ∧ (get_required_dem_tiles west south east north).Nodup := by
  have hlon : ⌊west⌋ < ⌈east⌉ := by
    have h1 : (⌊west⌋ : ℚ) ≤ west := Int.floor_le west
    have h2 : (east : ℚ) ≤ ⌈east⌉ := Int.le_ceil east
    exact_mod_cast lt_of_le_of_lt h1 (lt_of_lt_of_le hwe h2)
  have hlat : ⌊south⌋ < ⌈north⌉ := by
    have h1 : (⌊south⌋ : ℚ) ≤ south := Int.floor_le south
    have h2 : (north : ℚ) ≤ ⌈north⌉ := Int.le_ceil north
    exact_mod_cast lt_of_le_of_lt h1 (lt_of_lt_of_le hsn h2)
  constructor
  · unfold get_required_dem_tiles
    rw [List.length_flatMap]
    have hmap : List.map (List.length ∘ fun lon =>
        (intRange ⌊south⌋ ⌈north⌉).map fun lat => tileName lon lat)
          (intRange ⌊west⌋ ⌈east⌉)
        = List.replicate (intRange ⌊west⌋ ⌈east⌉).length
            (intRange ⌊south⌋ ⌈north⌉).length := by
      rw [List.map_eq_replicate_iff]
      intro x hx
      obtain ⟨lon, _, rfl⟩ := List.mem_map.mp hx
      simp
    rw [hmap, List.sum_replicate, smul_eq_mul, intRange_length, intRange_length]
    rw [Int.natCast_mul, Int.toNat_of_nonneg (by omega), Int.toNat_of_nonneg (by omega)]
  · unfold get_required_dem_tiles
    rw [List.nodup_flatMap]
    constructor
    · intro lon _
      exact (intRange_nodup _ _).map fun x y hxy => (tileName_inj hxy).2
    · refine List.Pairwise.imp ?_ (intRange_nodup ⌊west⌋ ⌈east⌉)
      intro lon1 lon2 hne s hs1 hs2
      obtain ⟨lat1, _, rfl⟩ := List.mem_map.mp hs1
      obtain ⟨lat2, _, heq⟩ := List.mem_map.mp hs2
      exact hne (tileName_inj heq).1.symm

theorem get_required_dem_tiles_count_nodup_witness :
    (0 : ℚ) < 1 ∧ (0 : ℚ) < 1 ∧
      (((get_required_dem_tiles 0 0 1 1).length : ℤ)
          = (⌈(1 : ℚ)⌉ - ⌊(0 : ℚ)⌋) * (⌈(1 : ℚ)⌉ - ⌊(0 : ℚ)⌋)
        ∧ (get_required_dem_tiles 0 0 1 1).Nodup) :=
  ⟨by norm_num, by norm_num,
    get_required_dem_tiles_count_nodup 0 0 1 1 (by norm_num) (by norm_num)⟩

/-- Claim C10: the standalone tile resolver of the data service and the
inline tile loop of the backend DEM downloader produce exactly the same list
of tile name strings, in the same longitude-major ascending order, for every
bounding box. Both were transcribed separately from their source files; their
loop structure and name formatting coincide exactly. -/
theorem tile_lists_data_service_eq_backend (west south east north : ℚ) :
    get_required_dem_tiles west south east north
      = backend_dem_tiles west south east north := rfl

/-! ## backend_service sar_downloader.py : scene selection inside
SARDownloader.download_sar_data

Strings are modelled as character lists. A scene exposes its name, its
acquisition time (the list handed to the selection is assumed sorted by it)
and its endpoint URL list (properties additionalUrls). -/

structure SceneCandidate where
  sceneName : List Char
  acquisitionTime : ℤ
  urls : List (List Char)
deriving DecidableEq

/-- The characters of the Python f-string _{pol}.tif. -/
def polSuffix (pol : List Char) : List Char :=
  '_' :: pol ++ ['.', 't', 'i', 'f']

/-- all(any(url.endswith(...) for url in urls) for pol in polarizations). -/
def qualifies (pols : List (List Char)) (s : SceneCandidate) : Bool :=
  pols.all fun pol => s.urls.any fun url => (polSuffix pol).isSuffixOf url

/-- Order-preserving last-writer-wins key dedup of a Python dict
comprehension keyed by sceneName, then .values(). -/
def pythonDictValues (l : List SceneCandidate) : List SceneCandidate :=
  l.foldl (fun acc p =>
    if acc.any (fun q => q.sceneName == p.sceneName) then
      acc.map (fun q => if q.sceneName == p.sceneName then p else q)
    else acc ++ [p]) []

/-- The scene-selection core of download_sar_data: first qualifying scene
scanning forward, first qualifying scene scanning backward, kept in that
order, filtered for absence, then deduplicated by scene name. An empty result
corresponds to the "no scenes found containing all requested polarizations"
error return of the code. -/
def select_scenes (pols : List (List Char)) (results : List SceneCandidate) :
    List SceneCandidate :=
  pythonDictValues
    (([results.find? (qualifies pols), results.reverse.find? (qualifies pols)]).filterMap id)

lemma find?_first {α : Type} (p : α → Bool) (l1 l2 : List α) (x : α)
    (hl1 : ∀ y ∈ l1, p y = false) (hx : p x = true) :
    (l1 ++ x :: l2).find? p = some x := by
  induction l1 with
  | nil => exact List.find?_cons_of_pos l2 hx
  | cons a t ih =>
    rw [List.cons_append, List.find?_cons_of_neg _ (by
      rw [hl1 a (List.mem_cons_self a t)]; simp)]
    exact ih fun y hy => hl1 y (List.mem_cons_of_mem a hy)

/-- Claim C5: on a candidate list sorted by ascending acquisition time, the
selection keeps the first qualifying scene scanning forward (oldest) and the
first qualifying scene scanning backward (newest); it is empty when no scene
qualifies, and collapses to a single scene when both directions pick the same
scene name. -/
theorem select_scenes_spec (pols : List (List Char)) (results : List SceneCandidate)
    (_hsorted : results.Pairwise fun s t => s.acquisitionTime ≤ t.acquisitionTime) :
    ((∀ s ∈ results, qualifies pols s = false) → select_scenes pols results = [])
      ∧ (∀ l1 l2 m1 m2 : List SceneCandidate, ∀ o n : SceneCandidate,
          results = l1 ++ o :: l2 → qualifies pols o = true →
          (∀ s ∈ l1, qualifies pols s = false) →
          results = m1 ++ n :: m2 → qualifies pols n = true →
          (∀ s ∈ m2, qualifies pols s = false) →
          select_scenes pols results
            = if o.sceneName = n.sceneName then [n] else [o, n]) := by
  constructor
  · intro hall
    unfold select_scenes
    rw [List.find?_eq_none.mpr (fun x hx => by rw [hall x hx]; simp),
      List.find?_eq_none.mpr (fun x hx => by
        rw [hall x (List.mem_reverse.mp hx)]; simp)]
    rfl
  · intro l1 l2 m1 m2 o n hsplit1 hq1 hmin hsplit2 hq2 hmax
    unfold select_scenes
    rw [hsplit1, find?_first _ _ _ _ hmin hq1]
    have hrev : (l1 ++ o :: l2).reverse = m2.reverse ++ n :: m1.reverse := by
      rw [← hsplit1, hsplit2, List.reverse_append, List.reverse_cons, List.append_assoc,
        List.singleton_append]
    rw [hrev, find?_first _ _ _ _ (fun y hy => hmax y (List.mem_reverse.mp hy)) hq2]
    show pythonDictValues [o, n] = _
    unfold pythonDictValues
    by_cases hname : o.sceneName = n.sceneName
    · simp [hname]
    · simp [hname]

theorem select_scenes_spec_witness :
    select_scenes [['v', 'v']]
        [⟨['s', '0'], 0, [['u', '_', 'v', 'v', '.', 't', 'i', 'f']]⟩,
         ⟨['s', '1'], 1, []⟩, ⟨['s', '2'], 2, []⟩, ⟨['s', '3'], 3, []⟩,
         ⟨['s', '4'], 4, [['u', '_', 'v', 'v', '.', 't', 'i', 'f']]⟩]
      = [⟨['s', '0'], 0, [['u', '_', 'v', 'v', '.', 't', 'i', 'f']]⟩,
         ⟨['s', '4'], 4, [['u', '_', 'v', 'v', '.', 't', 'i', 'f']]⟩] := by
  have h := (select_scenes_spec [['v', 'v']]
      [⟨['s', '0'], 0, [['u', '_', 'v', 'v', '.', 't', 'i', 'f']]⟩,
       ⟨['s', '1'], 1, []⟩, ⟨['s', '2'], 2, []⟩, ⟨['s', '3'], 3, []⟩,
       ⟨['s', '4'], 4, [['u', '_', 'v', 'v', '.', 't', 'i', 'f']]⟩] (by decide)).2
      [] [⟨['s', '1'], 1, []⟩, ⟨['s', '2'], 2, []⟩, ⟨['s', '3'], 3, []⟩,
          ⟨['s', '4'], 4, [['u', '_', 'v', 'v', '.', 't', 'i', 'f']]⟩]
      [⟨['s', '0'], 0, [['u', '_', 'v', 'v', '.', 't', 'i', 'f']]⟩,
       ⟨['s', '1'], 1, []⟩, ⟨['s', '2'], 2, []⟩, ⟨['s', '3'], 3, []⟩] []
      ⟨['s', '0'], 0, [['u', '_', 'v', 'v', '.', 't', 'i', 'f']]⟩
      ⟨['s', '4'], 4, [['u', '_', 'v', 'v', '.', 't', 'i', 'f']]⟩
      rfl (by decide) (by decide) rfl (by decide) (by decide)
  rw [if_neg (by decide)] at h
  exact h

/-! ## to_db in ml_service features.py and backend data_processing.py

The base-10 logarithm is irrational, so it stays abstract as log10F; what the
two implementations differ in is the value they hand to it. -/

/-- intensity_safe[intensity_safe <= 0] = 1e-10 : the elementwise clamp the
ml_service to_db applies before the logarithm; positive entries pass through
unchanged. -/
def to_db_safe (x : ℚ) : ℚ :=
  if x ≤ 0 then 1 / 10 ^ 10 else x

/-- ml_service to_db on one entry: 10 * log10(intensity_safe). -/
def to_db (log10F : ℚ → ℚ) (x : ℚ) : ℚ :=
  10 * log10F (to_db_safe x)

/-- backend DataProcessor.to_db on one entry:
10 * log10(np.maximum(x, 1e-10)). -/
def backend_to_db (log10F : ℚ → ℚ) (x : ℚ) : ℚ :=
  10 * log10F (max x (1 / 10 ^ 10))

/-- Claim C6 counterexample: at the positive entry 1e-20, which is smaller
than 1e-10, the ml_service to_db does not treat the entry as 1e-10 before
the logarithm: the value handed to log10 is 1e-20 itself, not
max(1e-20, 1e-10), so the two cited implementations disagree there. -/
theorem to_db_small_positive_counterexample :
    to_db_safe (1 / 10 ^ 20) = 1 / 10 ^ 20
      ∧ to_db_safe (1 / 10 ^ 20) ≠ max (1 / 10 ^ 20) ((1 : ℚ) / 10 ^ 10)
      ∧ to_db (fun q => q) (1 / 10 ^ 20) ≠ backend_to_db (fun q => q) (1 / 10 ^ 20) := by
  refine ⟨?_, ?_, ?_⟩ <;> norm_num [to_db_safe, to_db, backend_to_db]

/-- Claim C6 amended: the backend to_db computes 10 * log10(max(x, 1e-10));
the ml_service to_db replaces only non-positive entries with 1e-10 and passes
every positive entry through unchanged, even positives below 1e-10. In both
versions the logarithm argument is strictly positive for every input, and the
two agree wherever the input is non-positive or at least 1e-10. -/
theorem to_db_clamp_amended (log10F : ℚ → ℚ) (x : ℚ) :
    0 < to_db_safe x
      ∧ (x ≤ 0 → to_db_safe x = 1 / 10 ^ 10)
      ∧ (0 < x → to_db_safe x = x)
      ∧ 0 < max x ((1 : ℚ) / 10 ^ 10)
      ∧ backend_to_db log10F x = 10 * log10F (max x (1 / 10 ^ 10))
      ∧ (x ≤ 0 ∨ 1 / 10 ^ 10 ≤ x → to_db log10F x = backend_to_db log10F x) := by
  refine ⟨?_, ?_, ?_, ?_, rfl, ?_⟩
  · unfold to_db_safe
    split
    · norm_num
    · linarith [not_le.mp (by assumption : ¬ x ≤ 0)]
  · intro h
    unfold to_db_safe
    rw [if_pos h]
  · intro h
    unfold to_db_safe
    rw [if_neg (not_le.mpr h)]
  · exact lt_max_of_lt_right (by norm_num)
  · rintro (h | h)
    · unfold to_db backend_to_db to_db_safe
      rw [if_pos h, max_eq_right (le_trans h (by norm_num))]
    · unfold to_db backend_to_db to_db_safe
      rw [if_neg (not_le.mpr (lt_of_lt_of_le (by norm_num) h)),
        max_eq_left (le_trans (by norm_num) h)]

theorem to_db_clamp_amended_witness :
    to_db (fun q => q) (-1) = backend_to_db (fun q => q) (-1) :=
  (to_db_clamp_amended (fun q => q) (-1)).2.2.2.2.2 (Or.inl (by norm_num))

/-! ## ml_service calculate_vh_vv_ratio and backend
DataProcessor.calculate_vh_vv_ratio_change -/

/-- vv_safe[vv_safe == 0] = np.nan applied to one denominator entry; none
models NaN. Only exact zeros are replaced; negative entries pass through. -/
def vv_safe_ml (v : ℚ) : Option ℚ :=
  if v = 0 then none else some v

/-- One entry of ratio = vh_float / vv_safe; dividing by NaN yields NaN. -/
def ratio_ml (vh vv : ℚ) : Option ℚ :=
  (vv_safe_ml vv).map fun v => vh / v

/-- calculate_vh_vv_ratio over whole arrays, including the ValueError raised
on a shape mismatch. -/
def calculate_vh_vv_ratio (vh vv : ℕ → ℕ → ℚ) (shp1 shp2 : ℕ × ℕ) :
    Except String (ℕ → ℕ → Option ℚ) :=
  if shp1 ≠ shp2 then
    Except.error "Input vh_band and vv_band arrays must have the same shape."
  else
    Except.ok fun i j => ratio_ml (vh i j) (vv i j)

/-- NaN-propagating subtraction: ratio_change = ratio_after - ratio_before
as computed in generate_final_assets.py. -/
def subNaN (a b : Option ℚ) : Option ℚ :=
  match a, b with
  | some x, some y => some (x - y)
  | _, _ => none

/-- One entry of the backend denominator np.where(vv > 0, vv, 1e-10). -/
def vv_linear_backend (v : ℚ) : ℚ :=
  if 0 < v then v else 1 / 10 ^ 10

/-- One entry of a backend ratio vh / np.where(vv > 0, vv, 1e-10). -/
def ratio_backend (vh vv : ℚ) : ℚ :=
  vh / vv_linear_backend vv

/-- One entry of the backend ratio_change = ratio_after - ratio_before. -/
def ratio_change_backend (vv_before vv_after vh_before vh_after : ℚ) : ℚ :=
  ratio_backend vh_after vv_after - ratio_backend vh_before vv_before

/-- Claim C7 counterexample: at the negative denominator entry vv = -1 the
ml_service ratio code neither floors the denominator to a positive epsilon
nor replaces it with NaN: the denominator actually used is -1 itself, and
the resulting ratio entry is 1 / (-1) = -1, which neither claimed treatment
(positive epsilon under vh = 1, or NaN) could produce. -/
theorem vh_vv_ratio_counterexample :
    vv_safe_ml (-1) = some (-1)
      ∧ ratio_ml 1 (-1) = some (-1)
      ∧ ¬ (0 : ℚ) < -1 := by
  refine ⟨?_, ?_, by norm_num⟩ <;> norm_num [vv_safe_ml, ratio_ml]

/-- Claim C7 amended: the ml_service ratio replaces only denominator entries
exactly equal to 0 with NaN; negative denominators are used as they are. Its
ratio entries are NaN exactly where VV = 0 and the exact quotient elsewhere,
so no entry is a raw division-by-zero artifact, and a ratio_change entry is
NaN exactly where one of the two VV entries is 0. The backend version floors
every non-positive denominator to the positive epsilon 1e-10, so its
denominator is always positive. -/
theorem vh_vv_ratio_policy_amended (A B : ℕ → ℕ → ℚ) (shp : ℕ × ℕ) (vh vv vhb vvb : ℚ) :
    calculate_vh_vv_ratio A B shp shp = Except.ok (fun i j => ratio_ml (A i j) (B i j))
      ∧ (ratio_ml vh vv = none ↔ vv = 0)
      ∧ (vv ≠ 0 → ratio_ml vh vv = some (vh / vv))
      ∧ (subNaN (ratio_ml vh vv) (ratio_ml vhb vvb) = none ↔ vv = 0 ∨ vvb = 0)
      ∧ 0 < vv_linear_backend vvb
      ∧ (vvb ≤ 0 → vv_linear_backend vvb = 1 / 10 ^ 10) := by
  refine ⟨by simp [calculate_vh_vv_ratio], ?_, ?_, ?_, ?_, ?_⟩
  · unfold ratio_ml vv_safe_ml
    by_cases h : vv = 0 <;> simp [h]
  · intro h
    unfold ratio_ml vv_safe_ml
    simp [h]
  · unfold subNaN ratio_ml vv_safe_ml
    by_cases h1 : vv = 0 <;> by_cases h2 : vvb = 0 <;> simp [h1, h2]
  · unfold vv_linear_backend
    split
    · assumption
    · norm_num
  · intro h
    unfold vv_linear_backend
    rw [if_neg (not_lt.mpr h)]

theorem vh_vv_ratio_policy_amended_witness :
    ratio_ml 1 2 = some (1 / 2) ∧ vv_linear_backend (-3) = 1 / 10 ^ 10 :=
  ⟨(vh_vv_ratio_policy_amended (fun _ _ => 0) (fun _ _ => 0) (0, 0) 1 2 0 (-3)).2.2.1
      (by norm_num),
    (vh_vv_ratio_policy_amended (fun _ _ => 0) (fun _ _ => 0) (0, 0) 1 2 0 (-3)).2.2.2.2.2
      (by norm_num)⟩

/-! ## NaN fill before the external risk model

generate_final_assets.py runs X.fillna(0, inplace=True) after assembling the
four-column table and before fit / predict_proba; the backend
LandslidePredictor.make_prediction hands features_df, exactly as returned by
DataProcessor.process_all_data, to self.model.predict_proba, and no step on
that path replaces NaN. -/

structure FeatureRow where
  slope : Option ℚ
  backscatter_change : Option ℚ
  correlation : Option ℚ
  ratio_change : Option ℚ
deriving DecidableEq

/-- X.fillna(0) on one four-column row. -/
def fillnaRow (r : FeatureRow) : FeatureRow :=
  ⟨some (r.slope.getD 0), some (r.backscatter_change.getD 0),
    some (r.correlation.getD 0), some (r.ratio_change.getD 0)⟩

/-- X.fillna(0, inplace=True) on the whole table. -/
def fillna0 (X : List FeatureRow) : List FeatureRow :=
  X.map fillnaRow

/-- The table generate_final_assets.py hands to the model. -/
def ml_service_model_input (X : List FeatureRow) : List FeatureRow :=
  fillna0 X

/-- The table make_prediction hands to self.model.predict_proba. -/
def backend_model_input (X : List FeatureRow) : List FeatureRow :=
  X

/-- Claim C8 counterexample: on the backend prediction path a feature table
with a NaN entry (here in ratio_change) reaches the external model with that
NaN still present, not replaced by 0. -/
theorem prediction_nan_fill_counterexample :
    backend_model_input [⟨some 1, some 2, some 3, none⟩]
        = [⟨some 1, some 2, some 3, none⟩]
      ∧ ml_service_model_input [⟨some 1, some 2, some 3, none⟩]
        = [⟨some 1, some 2, some 3, some 0⟩] :=
  ⟨rfl, rfl⟩

/-- Claim C8 amended: on the asset-generation path every NaN of the
assembled table is replaced by 0 before the model sees it (shape preserved,
non-NaN entries untouched), but on the backend make_prediction path the
table reaches the model exactly as assembled, with no NaN replacement. -/
theorem prediction_nan_fill_amended (X : List FeatureRow) (r : FeatureRow) :
    (∀ row ∈ ml_service_model_input X, row.slope ≠ none
        ∧ row.backscatter_change ≠ none ∧ row.correlation ≠ none
        ∧ row.ratio_change ≠ none)
      ∧ (ml_service_model_input X).length = X.length
      ∧ (∀ q : ℚ, r.ratio_change = some q → (fillnaRow r).ratio_change = some q)
      ∧ (r.ratio_change = none → (fillnaRow r).ratio_change = some 0)
      ∧ backend_model_input X = X := by
  refine ⟨?_, by simp [ml_service_model_input, fillna0], ?_, ?_, rfl⟩
  · intro row hrow
    obtain ⟨r0, _, rfl⟩ := List.mem_map.mp hrow
    simp [fillnaRow]
  · intro q hq
    simp [fillnaRow, hq]
  · intro hq
    simp [fillnaRow, hq]

theorem prediction_nan_fill_amended_witness :
    (fillnaRow ⟨none, none, none, none⟩).ratio_change = some 0 :=
  (prediction_nan_fill_amended [] ⟨none, none, none, none⟩).2.2.2.1 rfl

/-! ## Raster handle lifecycle of the DEM mosaic step

Both download_dem_from_aws (data service) and
DEMDownloader.download_dem_data (backend) open the remote datasets, run
rasterio.merge.merge inside a try block, close the datasets inside that same
try block only after the merge and profile update succeed, and return from
the except handler without closing anything. The embedding reduces a run to
its externally visible handle lifecycle, driven by an environment describing
the outcomes of the external calls. -/

structure MosaicEnv where
  wktValid : Bool
  numTiles : ℕ
  tileOk : ℕ → Bool
  mergeFails : Bool
  saveOk : Bool

structure MosaicRun where
  opened : List ℕ
  closed : List ℕ
  success : Bool

/-- Handle lifecycle of download_dem_from_aws: handles are indices of the
candidate tiles whose existence check returns 200. -/
def download_dem_from_aws (env : MosaicEnv) : MosaicRun :=
  if ¬ env.wktValid then ⟨[], [], false⟩
  else if List.range env.numTiles = [] then ⟨[], [], false⟩
  else
    let opened := (List.range env.numTiles).filter env.tileOk
    if opened = [] then ⟨opened, [], false⟩
    else if env.mergeFails then ⟨opened, [], false⟩
    else ⟨opened, opened, env.saveOk⟩

/-- Handle lifecycle of DEMDownloader.download_dem_data; the close placement
relative to merge and to the except handler is identical. -/
def backend_download_dem_data (env : MosaicEnv) : MosaicRun :=
  if ¬ env.wktValid then ⟨[], [], false⟩
  else if List.range env.numTiles = [] then ⟨[], [], false⟩
  else
    let opened := (List.range env.numTiles).filter env.tileOk
    if opened = [] then ⟨opened, [], false⟩
    else if env.mergeFails then ⟨opened, [], false⟩
    else ⟨opened, opened, env.saveOk⟩

/-- Claim C9 counterexample: with a valid AOI, one existing tile and a
failing merge-and-clip step, the run returns with the opened handle never
closed, on both implementations. -/
theorem dem_handle_close_counterexample :
    (download_dem_from_aws ⟨true, 1, fun _ => true, true, true⟩).opened = [0]
      ∧ (download_dem_from_aws ⟨true, 1, fun _ => true, true, true⟩).closed = []
      ∧ (backend_download_dem_data ⟨true, 1, fun _ => true, true, true⟩).closed = [] :=
  ⟨rfl, rfl, rfl⟩

/-- Claim C9 amended: every opened source handle is closed before returning
on every path on which the merge-and-clip step does not fail (in particular
on every successful run); when merge-and-clip fails, the except handler
returns with no handle closed. Both implementations behave identically. -/
theorem dem_handle_close_amended (env : MosaicEnv) :
    (env.mergeFails = false →
        (download_dem_from_aws env).closed = (download_dem_from_aws env).opened)
      ∧ ((download_dem_from_aws env).success = true →
          (download_dem_from_aws env).closed = (download_dem_from_aws env).opened)
      ∧ (env.mergeFails = true → (download_dem_from_aws env).closed = [])
      ∧ backend_download_dem_data env = download_dem_from_aws env := by
  refine ⟨?_, ?_, ?_, rfl⟩ <;>
    · simp only [download_dem_from_aws]
      split_ifs <;> intro h <;> simp_all

theorem dem_handle_close_amended_witness :
    (download_dem_from_aws ⟨true, 1, fun _ => true, false, true⟩).closed
      = (download_dem_from_aws ⟨true, 1, fun _ => true, false, true⟩).opened :=
  (dem_handle_close_amended ⟨true, 1, fun _ => true, false, true⟩).1 rfl

end Trikal
